import Mathlib

/-!
Formal model of the `@angular-redux3/store` library.

This file shallowly embeds the parts of the library needed to settle the
claims under scrutiny:

* the normalized entity CRUD engine (`createEntityAdapter` and its eleven
  operations, together with its `sortEntities` re-sorting pass),
* the memoized selector built by `createSelector`,
* the `NgRedux.configureStore` double-initialization guard,
* the lazy `ReducerRegistry` together with `loadReducer`/its unload closure,
* the SSR `rehydrateState` helper.

JavaScript objects used as string-or-number keyed dictionaries are modelled
as association lists over an arbitrary key type with decidable equality;
`obj[k]` is `entLookup`, the spread `{...obj, [k]: v}` is `entInsert`
(replace in place when the key is present, append otherwise, matching JS
key-ordering semantics), and `delete obj[k]` is `entDelete`.  JS `===` on
values is modelled as equality of the corresponding Lean values.
-/

/-- JS object lookup `obj[k]`: first entry with the given key, if any. -/
def entLookup {κ T : Type} [DecidableEq κ] : List (κ × T) → κ → Option T
  | [], _ => none
  | (k0, v) :: rest, k => if k0 = k then some v else entLookup rest k

/-- JS spread update `{...obj, [k]: v}`: replace the entry in place when the
key is present, append a new entry otherwise. -/
def entInsert {κ T : Type} [DecidableEq κ] : List (κ × T) → κ → T → List (κ × T)
  | [], k, v => [(k, v)]
  | (k0, v0) :: rest, k, v =>
      if k0 = k then (k, v) :: rest else (k0, v0) :: entInsert rest k v

/-- JS `delete obj[k]`: drop every entry with the given key. -/
def entDelete {κ T : Type} [DecidableEq κ] (l : List (κ × T)) (k : κ) : List (κ × T) :=
  l.filter (fun p => decide (p.1 ≠ k))

/-- The key set of a JS object, in property order (`Object.keys`). -/
def entKeys {κ T : Type} (l : List (κ × T)) : List κ :=
  l.map Prod.fst

/-- The shape of a normalized entity state (`EntityState<T>` in
`entity-adapter.ts`): `ids` is the ordered id array, `entities` the
id-to-entity dictionary. -/
structure EntityState (κ T : Type) where
  ids : List κ
  entities : List (κ × T)
deriving DecidableEq

/-- Configuration captured by the closures `createEntityAdapter` returns:
the id extractor `selectId` and the optional JS comparator `sortComparer`
(a comparator returns a number; negative or zero means "not after"). -/
structure EntityAdapterConfig (κ T : Type) where
  selectId : T → κ
  sortComparer : Option (T → T → Int)

/-- The boolean "less or equal" order a JS numeric comparator induces:
`a` may precede `b` exactly when `cmp a b ≤ 0`. -/
def cmpLe {T : Type} (cmp : T → T → Int) (a b : T) : Bool :=
  decide (cmp a b ≤ 0)

/-- The `sortEntities` helper of `createEntityAdapter`: with no comparator it
returns the state unchanged; with a comparator it maps `ids` to entities,
drops missing lookups (`filter(Boolean)`), sorts the entity list with the
comparator (JS `Array.prototype.sort` is stable, modelled by `mergeSort`),
and rebuilds `ids` by applying `selectId` to the sorted entities, keeping
`entities` as is (`{...state, ids}`). -/
def sortEntities {κ T : Type} [DecidableEq κ] (cfg : EntityAdapterConfig κ T)
    (s : EntityState κ T) : EntityState κ T :=
  match cfg.sortComparer with
  | none => s
  | some cmp =>
      let sortedEntities := ((s.ids.map (entLookup s.entities)).filterMap id).mergeSort (cmpLe cmp)
      { s with ids := sortedEntities.map cfg.selectId }

/-- The `getInitialState` of the adapter, without additional properties:
`{ ids: [], entities: {} }`. -/
def getInitialState {κ T : Type} : EntityState κ T :=
  { ids := [], entities := [] }

/-- Adapter `addOne`: no-op when the id is already present, otherwise append
the id, insert the entity and re-sort. -/
def addOne {κ T : Type} [DecidableEq κ] (cfg : EntityAdapterConfig κ T)
    (s : EntityState κ T) (e : T) : EntityState κ T :=
  let i := cfg.selectId e
  if (entLookup s.entities i).isSome then s
  else sortEntities cfg { ids := s.ids ++ [i], entities := entInsert s.entities i e }

/-- Adapter `addMany`: fold `addOne` over the list. -/
def addMany {κ T : Type} [DecidableEq κ] (cfg : EntityAdapterConfig κ T)
    (s : EntityState κ T) (es : List T) : EntityState κ T :=
  es.foldl (addOne cfg) s

/-- Adapter `setAll`: rebuild `entities` and `ids` entirely from the list
(one `ids.push(id)` per element, unconditionally), then re-sort. -/
def setAll {κ T : Type} [DecidableEq κ] (cfg : EntityAdapterConfig κ T)
    (_s : EntityState κ T) (es : List T) : EntityState κ T :=
  let newEntities := es.foldl (fun acc e => entInsert acc (cfg.selectId e) e) []
  sortEntities cfg { ids := es.map cfg.selectId, entities := newEntities }

/-- Adapter `setOne`: insert when absent, replace when present, always
re-sort. -/
def setOne {κ T : Type} [DecidableEq κ] (cfg : EntityAdapterConfig κ T)
    (s : EntityState κ T) (e : T) : EntityState κ T :=
  let i := cfg.selectId e
  let exists0 := (entLookup s.entities i).isSome
  sortEntities cfg
    { ids := if exists0 then s.ids else s.ids ++ [i],
      entities := entInsert s.entities i e }

/-- Adapter `removeOne`: no-op when the id is absent, otherwise filter the id
out of `ids` and delete the entry; the source does not re-sort here. -/
def removeOne {κ T : Type} [DecidableEq κ] (_cfg : EntityAdapterConfig κ T)
    (s : EntityState κ T) (i : κ) : EntityState κ T :=
  match entLookup s.entities i with
  | none => s
  | some _ =>
      { ids := s.ids.filter (fun k => decide (k ≠ i)),
        entities := entDelete s.entities i }

/-- Adapter `removeMany`: fold `removeOne` over the list. -/
def removeMany {κ T : Type} [DecidableEq κ] (cfg : EntityAdapterConfig κ T)
    (s : EntityState κ T) (is0 : List κ) : EntityState κ T :=
  is0.foldl (removeOne cfg) s

/-- Adapter `removeAll`: reset to the empty state. -/
def removeAll {κ T : Type} (_s : EntityState κ T) : EntityState κ T :=
  { ids := [], entities := [] }

/-- Adapter `updateOne`: no-op when the id is absent; otherwise the object
spread `{...existing, ...update.changes}` (modelled as the function
`changes` applied to the existing entity) is stored back under `update.id`,
`ids` is kept, and the state is re-sorted. -/
def updateOne {κ T : Type} [DecidableEq κ] (cfg : EntityAdapterConfig κ T)
    (s : EntityState κ T) (i : κ) (changes : T → T) : EntityState κ T :=
  match entLookup s.entities i with
  | none => s
  | some existing =>
      sortEntities cfg
        { ids := s.ids, entities := entInsert s.entities i (changes existing) }

/-- Adapter `updateMany`: fold `updateOne` over the list of updates. -/
def updateMany {κ T : Type} [DecidableEq κ] (cfg : EntityAdapterConfig κ T)
    (s : EntityState κ T) (us : List (κ × (T → T))) : EntityState κ T :=
  us.foldl (fun acc u => updateOne cfg acc u.1 u.2) s

/-- Adapter `upsertOne`: `setOne` when the id is present, `addOne`
otherwise. -/
def upsertOne {κ T : Type} [DecidableEq κ] (cfg : EntityAdapterConfig κ T)
    (s : EntityState κ T) (e : T) : EntityState κ T :=
  if (entLookup s.entities (cfg.selectId e)).isSome then setOne cfg s e
  else addOne cfg s e

/-- Adapter `upsertMany`: fold `upsertOne` over the list. -/
def upsertMany {κ T : Type} [DecidableEq κ] (cfg : EntityAdapterConfig κ T)
    (s : EntityState κ T) (es : List T) : EntityState κ T :=
  es.foldl (upsertOne cfg) s

/-- One adapter operation, carrying its argument.  An `updateOne` update
record `{id, changes}` is modelled as the id together with the function
`existing => ({...existing, ...changes})` the object spread denotes. -/
inductive EntityOp (κ T : Type) where
  | addOne (e : T)
  | addMany (es : List T)
  | setAll (es : List T)
  | setOne (e : T)
  | removeOne (i : κ)
  | removeMany (is0 : List κ)
  | removeAll
  | updateOne (i : κ) (changes : T → T)
  | updateMany (us : List (κ × (T → T)))
  | upsertOne (e : T)
  | upsertMany (es : List T)

/-- Run one adapter operation on a state. -/
def applyOp {κ T : Type} [DecidableEq κ] (cfg : EntityAdapterConfig κ T)
    (s : EntityState κ T) : EntityOp κ T → EntityState κ T
  | .addOne e => addOne cfg s e
  | .addMany es => addMany cfg s es
  | .setAll es => setAll cfg s es
  | .setOne e => setOne cfg s e
  | .removeOne i => removeOne cfg s i
  | .removeMany is0 => removeMany cfg s is0
  | .removeAll => removeAll s
  | .updateOne i changes => updateOne cfg s i changes
  | .updateMany us => updateMany cfg s us
  | .upsertOne e => upsertOne cfg s e
  | .upsertMany es => upsertMany cfg s es

/-- The invariant stated by the specification: `ids` contains no duplicates
and its members are exactly the keys of `entities`. -/
@[reducible] def specInvariant {κ T : Type} [DecidableEq κ] (s : EntityState κ T) : Prop :=
  s.ids.Nodup
    ∧ (∀ k ∈ s.ids, (entLookup s.entities k).isSome)
    ∧ (∀ k ∈ entKeys s.entities, k ∈ s.ids)

/-- Key consistency: every stored entity is stored under its own id. -/
@[reducible] def keyConsistent {κ T : Type} (selectId : T → κ) (s : EntityState κ T) : Prop :=
  ∀ p ∈ s.entities, selectId p.2 = p.1

/-- The strengthened invariant under which every adapter operation is
well behaved: the specification invariant, no duplicate dictionary keys
(automatic for a JS object, a representation invariant here), and key
consistency. -/
@[reducible] def adapterWF {κ T : Type} [DecidableEq κ] (selectId : T → κ) (s : EntityState κ T) : Prop :=
  specInvariant s ∧ (entKeys s.entities).Nodup ∧ keyConsistent selectId s

/-- Side conditions on an operation's arguments under which it preserves
`adapterWF`: `setAll` must be given entities with pairwise distinct ids,
and update changes must never alter the id that `selectId` extracts. -/
@[reducible] def opOk {κ T : Type} (cfg : EntityAdapterConfig κ T) : EntityOp κ T → Prop
  | .setAll es => (es.map cfg.selectId).Nodup
  | .updateOne _ changes => ∀ v, cfg.selectId (changes v) = cfg.selectId v
  | .updateMany us => ∀ u ∈ us, ∀ v, cfg.selectId (u.2 v) = cfg.selectId v
  | _ => True

/-- The value list `ids.map(id => entities[id])`, before dropping missing
lookups. -/
def selectAllOpt {κ T : Type} [DecidableEq κ] (s : EntityState κ T) : List (Option T) :=
  s.ids.map (entLookup s.entities)

/-- The list `ids.map(id => entities[id])` is sorted according to the
comparator-induced order: every lookup hits an entity, and the resulting
entity list is pairwise ordered. -/
@[reducible] def entityListSorted {κ T : Type} [DecidableEq κ] (le : T → T → Bool)
    (s : EntityState κ T) : Prop :=
  (∀ o ∈ selectAllOpt s, o.isSome)
    ∧ ((selectAllOpt s).filterMap id).Pairwise (fun a b => le a b = true)

/-- The operations quantified over by the sort-invariant claim. -/
inductive SeqOp (κ T : Type) where
  | addMany (es : List T)
  | setOne (e : T)
  | updateOne (i : κ) (changes : T → T)

/-- Run one sort-invariant-claim operation. -/
def applySeqOp {κ T : Type} [DecidableEq κ] (cfg : EntityAdapterConfig κ T)
    (s : EntityState κ T) : SeqOp κ T → EntityState κ T
  | .addMany es => addMany cfg s es
  | .setOne e => setOne cfg s e
  | .updateOne i changes => updateOne cfg s i changes

/-- Run a sequence of sort-invariant-claim operations from a state. -/
def applySeq {κ T : Type} [DecidableEq κ] (cfg : EntityAdapterConfig κ T)
    (s : EntityState κ T) (ops : List (SeqOp κ T)) : EntityState κ T :=
  ops.foldl (applySeqOp cfg) s

/-- Side condition on a sort-invariant-claim operation: update changes never
alter the extracted id. -/
@[reducible] def seqOpOk {κ T : Type} (cfg : EntityAdapterConfig κ T) : SeqOp κ T → Prop
  | .updateOne _ changes => ∀ v, cfg.selectId (changes v) = cfg.selectId v
  | _ => True

/-- A heap reference: an address paired with the referenced value.  Object
identity in JS is modelled by the address; an operation that executes
`return state` keeps the address, while a branch that builds a new object
literal returns a fresh address. -/
structure Ref (σ : Type) where
  addr : Nat
  val : σ
deriving DecidableEq

/-- Reference-tracking `addOne`: the duplicate-id branch is the literal
`return state` of the source and keeps the input reference; the other
branch allocates. -/
def addOneRef {κ T : Type} [DecidableEq κ] (cfg : EntityAdapterConfig κ T)
    (r : Ref (EntityState κ T)) (e : T) (fresh : Nat) : Ref (EntityState κ T) :=
  if (entLookup r.val.entities (cfg.selectId e)).isSome then r
  else { addr := fresh, val := addOne cfg r.val e }

/-- Reference-tracking `removeOne`: the absent-id branch is the literal
`return state` of the source and keeps the input reference. -/
def removeOneRef {κ T : Type} [DecidableEq κ] (cfg : EntityAdapterConfig κ T)
    (r : Ref (EntityState κ T)) (i : κ) (fresh : Nat) : Ref (EntityState κ T) :=
  match entLookup r.val.entities i with
  | none => r
  | some _ => { addr := fresh, val := removeOne cfg r.val i }

/-- Reference-tracking `updateOne`: the absent-id branch is the literal
`return state` of the source and keeps the input reference. -/
def updateOneRef {κ T : Type} [DecidableEq κ] (cfg : EntityAdapterConfig κ T)
    (r : Ref (EntityState κ T)) (i : κ) (changes : T → T) (fresh : Nat) :
    Ref (EntityState κ T) :=
  match entLookup r.val.entities i with
  | none => r
  | some _ => { addr := fresh, val := updateOne cfg r.val i changes }

/-- The mutable cache closed over by a memoized selector: `lastInputs` and
`lastResult` (set together on every recomputation, cleared together by
`release`, hence one optional pair) and the recomputation counter. -/
structure MemoCache (V R : Type) where
  last : Option (List V × R)
  recomputations : Nat
deriving DecidableEq

/-- A fresh memoized selector cache (`lastInputs` undefined, counter 0);
also the cache `release()` resets to. -/
def memoCacheInit {V R : Type} : MemoCache V R :=
  { last := none, recomputations := 0 }

/-- One invocation of the memoized selector built by `createSelector`:
evaluate every input selector on the state; if a previous input list of the
same length exists and matches element-wise by reference, return the cached
result and leave the cache untouched; otherwise call the result function,
cache the inputs and result, and bump the counter. -/
def memoInvoke {S V R : Type} [DecidableEq V] (selectors : List (S → V))
    (resultFn : List V → R) (c : MemoCache V R) (state : S) : R × MemoCache V R :=
  let currentInputs := selectors.map (fun sel => sel state)
  let recompute : R × MemoCache V R :=
    (resultFn currentInputs,
      { last := some (currentInputs, resultFn currentInputs),
        recomputations := c.recomputations + 1 })
  match c.last with
  | none => recompute
  | some (lastInputs, lastResult) =>
      if currentInputs.length = lastInputs.length then
        if currentInputs = lastInputs then (lastResult, c) else recompute
      else recompute

/-- The underlying Redux store as far as the double-configuration claim
observes it: its current state and its registered subscribers. -/
structure StoreModel (σ : Type) where
  state : σ
  subscribers : List Nat
deriving DecidableEq

/-- The `NgRedux` service instance state relevant to `configureStore`: the
`_store` field, absent until the first successful configuration. -/
structure NgReduxModel (σ : Type) where
  store : Option (StoreModel σ)
deriving DecidableEq

/-- The `setStore` helper: install the store and subscribe the internal
`_store$` broadcaster to it (one more subscriber). -/
def setStore {σ : Type} (m : NgReduxModel σ) (st : StoreModel σ)
    (bridgeId : Nat) : NgReduxModel σ :=
  let _ := m
  { store := some { st with subscribers := st.subscribers ++ [bridgeId] } }

/-- The `NgRedux.configureStore` method.  The first statement of the source
throws `new Error with message Store already initialize!` when `_store` is
already set, before anything is built or assigned, so the error branch
returns the instance unchanged.  The success branch composes the reducer
through the `ReducerService` (abstracted as `composeReducersFn`), folds the
enhancers over the store-creation capability (`compose.apply(null,
enhancers)(createStore)`, abstracted over `createStoreFn`) and installs the
resulting store via `setStore`.  The result pairs the JS outcome (normal
return or thrown error message) with the instance state after the call. -/
def configureStore {σ ρ μ : Type}
    (composeReducersFn : ρ → List μ → ρ)
    (createStoreFn : ρ → σ → StoreModel σ)
    (enhancers : List ((ρ → σ → StoreModel σ) → (ρ → σ → StoreModel σ)))
    (bridgeId : Nat)
    (m : NgReduxModel σ) (reducer : ρ) (initState : σ) (middleware : List μ) :
    Except String Unit × NgReduxModel σ :=
  if m.store.isSome then (Except.error "Store already initialize!", m)
  else
    let rootReducer := composeReducersFn reducer middleware
    let composeResult := enhancers.foldr (fun f g => f ∘ g) id
    let store := composeResult createStoreFn rootReducer initState
    (Except.ok (), setStore m store bridgeId)

/-- The lazy `ReducerRegistry` state: the key-to-reducer slice map and the
optional base reducer.  Reducers are abstracted by the type `ρ`. -/
structure RegistryState (ρ : Type) where
  reducerMap : List (String × ρ)
  baseReducer : Option ρ
deriving DecidableEq

/-- Registry `register`: insert or replace the slice under the key, then
notify listeners unconditionally.  The boolean reports whether
`notifyListeners` ran (every registered listener fires exactly when it is
`true`). -/
def registryRegister {ρ : Type} (r : RegistryState ρ) (key : String) (red : ρ) :
    RegistryState ρ × Bool :=
  ({ r with reducerMap := entInsert r.reducerMap key red }, true)

/-- Registry `unregister`: when the key holds a reducer (a function, hence
truthy), delete it and notify; otherwise do nothing and notify nobody. -/
def registryUnregister {ρ : Type} (r : RegistryState ρ) (key : String) :
    RegistryState ρ × Bool :=
  if (entLookup r.reducerMap key).isSome then
    ({ r with reducerMap := entDelete r.reducerMap key }, true)
  else (r, false)

/-- The reducer `getCombinedReducer` produces, described symbolically by
which of the four source branches built it and from what: the base reducer
alone, the base merged with the registered slices, the plain combination of
the slices, or the identity reducer. -/
inductive CombinedReducer (ρ : Type) where
  | baseOnly (b : ρ)
  | baseWithSlices (b : ρ) (slices : List (String × ρ))
  | slicesOnly (slices : List (String × ρ))
  | identityReducer
deriving DecidableEq

/-- Registry `getCombinedReducer`, following the branch order of the
source: no slices with a base reducer returns the base itself; a base
reducer plus slices returns the merging wrapper; slices alone are combined;
otherwise the identity reducer. -/
def getCombinedReducer {ρ : Type} (r : RegistryState ρ) : CombinedReducer ρ :=
  if r.reducerMap.isEmpty then
    match r.baseReducer with
    | some b => .baseOnly b
    | none => .identityReducer
  else
    match r.baseReducer with
    | some b => .baseWithSlices b r.reducerMap
    | none => .slicesOnly r.reducerMap

/-- The system state `loadReducer` acts on: the registry singleton, the
reducer most recently pushed into the store via `replaceReducer` (absent
before any push), and the trace of dispatched action types. -/
structure LazyLoadState (ρ : Type) where
  registry : RegistryState ρ
  activeReducer : Option (CombinedReducer ρ)
  dispatchedTypes : List String
deriving DecidableEq

/-- The `loadReducer` function: register the slice, push the newly combined
reducer via `replaceReducer`, and dispatch one initialization action whose
type interpolates the key. -/
def loadReducer {ρ : Type} (key : String) (red : ρ) (sys : LazyLoadState ρ) :
    LazyLoadState ρ :=
  let reg1 := (registryRegister sys.registry key red).1
  { registry := reg1,
    activeReducer := some (getCombinedReducer reg1),
    dispatchedTypes := sys.dispatchedTypes ++ ["@@LAZY_REDUCER/INIT/" ++ key] }

/-- The unload closure `loadReducer` returns: unregister the key and push
the recombined reducer again; nothing is dispatched. -/
def unloadReducer {ρ : Type} (key : String) (sys : LazyLoadState ρ) :
    LazyLoadState ρ :=
  let reg1 := (registryUnregister sys.registry key).1
  { registry := reg1,
    activeReducer := some (getCombinedReducer reg1),
    dispatchedTypes := sys.dispatchedTypes }

/-- The SSR `rehydrateState` helper.  `serialized` is `none` for
`null`/`undefined`; the falsy guard of the source also catches the empty
string.  A throwing deserializer is modelled as returning `Except.error`;
the `try`/`catch` of the source turns such an error into the fallback.  The
default `JSON.parse` deserializer is taken as the parameter `jsonParse`.
Totality of this definition reflects that the function never itself
throws. -/
def rehydrateState {σ ε : Type} (serialized : Option String) (fallback : σ)
    (deserializer : Option (String → Except ε σ))
    (jsonParse : String → Except ε σ) : σ :=
  match serialized with
  | none => fallback
  | some s =>
      if s = "" then fallback
      else
        match (deserializer.getD jsonParse) s with
        | Except.ok v => v
        | Except.error _ => fallback

/-- Lexicographic ordering on character lists: the comparison ASCII strings
get from `localeCompare`. -/
def charListLt : List Char → List Char → Bool
  | [], [] => false
  | [], _ :: _ => true
  | _ :: _, [] => false
  | c :: cs, d :: ds => if c < d then true else if d < c then false else charListLt cs ds

/-- The `localeCompare` comparator of the specification scenario, on ASCII
strings: negative, zero or positive according to lexicographic order. -/
def localeCompare (a b : String) : Int :=
  if charListLt a.data b.data then -1 else if charListLt b.data a.data then 1 else 0

/-- The user record of the specification scenario. -/
structure UserRec where
  id : Nat
  name : String
deriving DecidableEq

/-- The scenario adapter: `selectId` reads the id field, `sortComparer`
compares names with `localeCompare`. -/
def userCfg : EntityAdapterConfig Nat UserRec :=
  { selectId := fun u => u.id,
    sortComparer := some (fun a b => localeCompare a.name b.name) }

/-- A pair-entity adapter for concrete checks: the id is the first
component, the comparator orders by the second component. -/
def pairCfg : EntityAdapterConfig Nat (Nat × Nat) :=
  { selectId := Prod.fst,
    sortComparer := some (fun a b => (a.2 : Int) - (b.2 : Int)) }

/-- An adapter over bare numeric entities: identity `selectId`, no
comparator. -/
def natCfg : EntityAdapterConfig Nat Nat :=
  { selectId := fun t => t, sortComparer := none }


/-- Looking a key up in an updated object: the new value at the written key,
the old lookups elsewhere. -/
theorem entLookup_entInsert {κ T : Type} [DecidableEq κ] (l : List (κ × T))
    (k k0 : κ) (v : T) :
    entLookup (entInsert l k v) k0 = if k = k0 then some v else entLookup l k0 := by
  induction l with
  | nil => simp [entInsert, entLookup]
  | cons p rest ih =>
      obtain ⟨k1, v1⟩ := p
      by_cases h1 : k1 = k
      · subst h1
        by_cases h2 : k1 = k0 <;> simp [entInsert, entLookup, h2]
      · by_cases h2 : k1 = k0
        · subst h2
          have : ¬ k = k1 := fun h => h1 h.symm
          simp [entInsert, entLookup, h1, this]
        · simp [entInsert, entLookup, h1, h2, ih]

/-- Updating an object at a present key leaves its key list unchanged. -/
theorem entKeys_entInsert_mem {κ T : Type} [DecidableEq κ] {l : List (κ × T)}
    {k : κ} (v : T) (h : k ∈ entKeys l) :
    entKeys (entInsert l k v) = entKeys l := by
  induction l with
  | nil => simp [entKeys] at h
  | cons p rest ih =>
      obtain ⟨k1, v1⟩ := p
      by_cases h1 : k1 = k
      · subst h1
        simp [entInsert, entKeys]
      · have hcons : entKeys ((k1, v1) :: rest) = k1 :: entKeys rest := rfl
        rw [hcons] at h
        have h2 : k ∈ entKeys rest := by
          rcases List.mem_cons.mp h with h3 | h3
          · exact absurd h3.symm h1
          · exact h3
        have ih2 : List.map Prod.fst (entInsert rest k v) = List.map Prod.fst rest := ih h2
        simp [entInsert, entKeys, h1, ih2]

/-- Updating an object at an absent key appends the key. -/
theorem entKeys_entInsert_notMem {κ T : Type} [DecidableEq κ] {l : List (κ × T)}
    {k : κ} (v : T) (h : k ∉ entKeys l) :
    entKeys (entInsert l k v) = entKeys l ++ [k] := by
  induction l with
  | nil => simp [entInsert, entKeys]
  | cons p rest ih =>
      obtain ⟨k1, v1⟩ := p
      have hcons : entKeys ((k1, v1) :: rest) = k1 :: entKeys rest := rfl
      rw [hcons] at h
      have h1 : ¬ k1 = k := fun h1 => h (by simp [h1])
      have h2 : k ∉ entKeys rest := fun h3 => h (List.mem_cons_of_mem _ h3)
      have ih2 : List.map Prod.fst (entInsert rest k v) = List.map Prod.fst rest ++ [k] := ih h2
      simp [entInsert, entKeys, h1, ih2]

/-- A key has a lookup exactly when it occurs in the key list. -/
theorem entLookup_isSome_iff {κ T : Type} [DecidableEq κ] (l : List (κ × T)) (k : κ) :
    (entLookup l k).isSome ↔ k ∈ entKeys l := by
  induction l with
  | nil => simp [entLookup, entKeys]
  | cons p rest ih =>
      obtain ⟨k1, v1⟩ := p
      by_cases h1 : k1 = k <;> simp [entLookup, entKeys, h1, ih]
      exact fun h => (h1 h.symm).elim

/-- A successful lookup returns one of the stored entries. -/
theorem entLookup_eq_some_mem {κ T : Type} [DecidableEq κ] {l : List (κ × T)}
    {k : κ} {v : T} (h : entLookup l k = some v) : (k, v) ∈ l := by
  induction l with
  | nil => simp [entLookup] at h
  | cons p rest ih =>
      obtain ⟨k1, v1⟩ := p
      by_cases h1 : k1 = k
      · subst h1
        simp [entLookup] at h
        simp [h]
      · simp [entLookup, h1] at h
        exact List.mem_cons_of_mem _ (ih h)

/-- Every entry of an updated object is an old entry or the written pair. -/
theorem mem_entInsert {κ T : Type} [DecidableEq κ] {l : List (κ × T)}
    {k : κ} {v : T} {p : κ × T} (h : p ∈ entInsert l k v) : p ∈ l ∨ p = (k, v) := by
  induction l with
  | nil => simpa [entInsert] using h
  | cons q rest ih =>
      obtain ⟨k1, v1⟩ := q
      by_cases h1 : k1 = k
      · subst h1
        rcases (by simpa [entInsert] using h : p = (k1, v) ∨ p ∈ rest) with h2 | h2
        · exact Or.inr h2
        · exact Or.inl (List.mem_cons_of_mem _ h2)
      · rcases (by simpa [entInsert, h1] using h : p = (k1, v1) ∨ p ∈ entInsert rest k v) with h2 | h2
        · exact Or.inl (by simp [h2])
        · rcases ih h2 with h3 | h3
          · exact Or.inl (List.mem_cons_of_mem _ h3)
          · exact Or.inr h3

/-- Deleting a key filters the key list. -/
theorem entKeys_entDelete {κ T : Type} [DecidableEq κ] (l : List (κ × T)) (k : κ) :
    entKeys (entDelete l k) = (entKeys l).filter (fun x => decide (x ≠ k)) := by
  induction l with
  | nil => simp [entDelete, entKeys]
  | cons p rest ih =>
      obtain ⟨k1, v1⟩ := p
      by_cases h1 : k1 = k <;>
        simpa [entDelete, entKeys, h1, List.filter] using by
          simpa [entDelete, entKeys] using ih

/-- Looking up after a delete: nothing at the deleted key, unchanged
elsewhere. -/
theorem entLookup_entDelete {κ T : Type} [DecidableEq κ] (l : List (κ × T)) (k k0 : κ) :
    entLookup (entDelete l k) k0 = if k0 = k then none else entLookup l k0 := by
  induction l with
  | nil => simp [entDelete, entLookup]
  | cons p rest ih =>
      obtain ⟨k1, v1⟩ := p
      have hstep : entDelete ((k1, v1) :: rest) k
          = if k1 = k then entDelete rest k else (k1, v1) :: entDelete rest k := by
        by_cases h : k1 = k <;> simp [entDelete, List.filter_cons, h]
      by_cases h1 : k1 = k
      · subst h1
        rw [hstep, if_pos rfl, ih]
        by_cases h2 : k0 = k1
        · simp [h2]
        · have hne : ¬ k1 = k0 := fun h => h2 h.symm
          simp [entLookup, h2, hne]
      · rw [hstep, if_neg h1]
        by_cases h2 : k0 = k1
        · subst h2
          have hne : ¬ k0 = k := fun h => h1 h
          simp [entLookup, hne]
        · have hne : ¬ k1 = k0 := fun h => h2 h.symm
          simp [entLookup, hne, ih]

/-- Every entry of a delete result is an entry of the original object. -/
theorem mem_entDelete {κ T : Type} [DecidableEq κ] {l : List (κ × T)} {k : κ}
    {p : κ × T} (h : p ∈ entDelete l k) : p ∈ l :=
  List.mem_of_mem_filter h

/-- Mapping `selectId` over the looked-up entity list of a key-consistent
object recovers the id list itself. -/
theorem filterMap_lookup_map_selectId {κ T : Type} [DecidableEq κ]
    (selectId : T → κ) (ents : List (κ × T)) (ids : List κ)
    (hsome : ∀ k ∈ ids, (entLookup ents k).isSome)
    (hcons : ∀ p ∈ ents, selectId p.2 = p.1) :
    ((ids.map (entLookup ents)).filterMap id).map selectId = ids := by
  induction ids with
  | nil => simp
  | cons k ks ih =>
      have hk : (entLookup ents k).isSome := hsome k (by simp)
      obtain ⟨v, hv⟩ := Option.isSome_iff_exists.mp hk
      have hsel : selectId v = k := hcons (k, v) (entLookup_eq_some_mem hv)
      have ih2 := ih (fun k2 hk2 => hsome k2 (List.mem_cons_of_mem _ hk2))
      have hstep : (List.map (entLookup ents) (k :: ks)).filterMap id
          = v :: (List.map (entLookup ents) ks).filterMap id := by
        simp [hv]
      rw [hstep, List.map_cons, hsel, ih2]

/-- Re-sorting never touches `entities`. -/
theorem sortEntities_entities {κ T : Type} [DecidableEq κ]
    (cfg : EntityAdapterConfig κ T) (s : EntityState κ T) :
    (sortEntities cfg s).entities = s.entities := by
  cases hc : cfg.sortComparer <;> simp [sortEntities, hc]

/-- Under the strengthened invariant, re-sorting permutes `ids`. -/
theorem sortEntities_ids_perm {κ T : Type} [DecidableEq κ]
    (cfg : EntityAdapterConfig κ T) (s : EntityState κ T)
    (h : adapterWF cfg.selectId s) :
    List.Perm (sortEntities cfg s).ids s.ids := by
  obtain ⟨⟨_, hsome, _⟩, _, hcons⟩ := h
  cases hc : cfg.sortComparer with
  | none => simp [sortEntities, hc]
  | some cmp =>
      simp only [sortEntities, hc]
      have hperm :=
        (List.mergeSort_perm ((s.ids.map (entLookup s.entities)).filterMap id) (cmpLe cmp)).map
          cfg.selectId
      rwa [filterMap_lookup_map_selectId cfg.selectId s.entities s.ids hsome hcons] at hperm

/-- Re-sorting preserves the strengthened invariant. -/
theorem adapterWF_sortEntities {κ T : Type} [DecidableEq κ]
    (cfg : EntityAdapterConfig κ T) (s : EntityState κ T)
    (h : adapterWF cfg.selectId s) :
    adapterWF cfg.selectId (sortEntities cfg s) := by
  have hperm := sortEntities_ids_perm cfg s h
  have hent := sortEntities_entities cfg s
  obtain ⟨⟨hnodup, hsome, hsub⟩, hknodup, hcons⟩ := h
  refine ⟨⟨hperm.symm.nodup hnodup, ?_, ?_⟩, ?_, ?_⟩
  · intro k hk
    rw [hent]
    exact hsome k (hperm.mem_iff.mp hk)
  · intro k hk
    rw [hent] at hk
    exact hperm.mem_iff.mpr (hsub k hk)
  · rw [hent]
    exact hknodup
  · intro p hp
    rw [hent] at hp
    exact hcons p hp

/-- The empty initial state satisfies the strengthened invariant. -/
theorem adapterWF_getInitialState {κ T : Type} [DecidableEq κ] (selectId : T → κ) :
    adapterWF selectId (getInitialState (κ := κ) (T := T)) := by
  refine ⟨⟨?_, ?_, ?_⟩, ?_, ?_⟩ <;> simp [getInitialState, entKeys, keyConsistent]

/-- Inserting a genuinely new entity preserves the strengthened invariant,
before re-sorting. -/
theorem adapterWF_insert_fresh {κ T : Type} [DecidableEq κ]
    (cfg : EntityAdapterConfig κ T) (s : EntityState κ T) (e : T)
    (h : adapterWF cfg.selectId s)
    (hx : entLookup s.entities (cfg.selectId e) = none) :
    adapterWF cfg.selectId
      { ids := s.ids ++ [cfg.selectId e],
        entities := entInsert s.entities (cfg.selectId e) e } := by
  obtain ⟨⟨hnodup, hsome, hsub⟩, hknodup, hcons⟩ := h
  have hnkeys : cfg.selectId e ∉ entKeys s.entities := by
    rw [← entLookup_isSome_iff, hx]
    simp
  have hnids : cfg.selectId e ∉ s.ids := fun hmem => by
    have := hsome _ hmem
    rw [hx] at this
    simp at this
  have hkeys := entKeys_entInsert_notMem (l := s.entities) e hnkeys
  refine ⟨⟨?_, ?_, ?_⟩, ?_, ?_⟩
  · simp [List.nodup_append, hnodup, hnids]
  · intro k hk
    rw [entLookup_entInsert]
    rcases (by simpa using hk : k ∈ s.ids ∨ k = cfg.selectId e) with h2 | h2
    · by_cases h3 : cfg.selectId e = k
      · simp [h3]
      · simpa [h3] using hsome k h2
    · simp [h2]
  · intro k hk
    rw [hkeys] at hk
    rcases (by simpa using hk : k ∈ entKeys s.entities ∨ k = cfg.selectId e) with h2 | h2
    · simp [hsub k h2]
    · simp [h2]
  · rw [hkeys]
    simp [List.nodup_append, hknodup, hnkeys]
  · intro p hp
    rcases mem_entInsert hp with h2 | h2
    · exact hcons p h2
    · rw [h2]

/-- Replacing a present entity by a new entity with the same id preserves
the strengthened invariant, before re-sorting. -/
theorem adapterWF_insert_replace {κ T : Type} [DecidableEq κ]
    (cfg : EntityAdapterConfig κ T) (s : EntityState κ T) (e : T)
    (h : adapterWF cfg.selectId s)
    (hx : (entLookup s.entities (cfg.selectId e)).isSome) :
    adapterWF cfg.selectId
      { ids := s.ids, entities := entInsert s.entities (cfg.selectId e) e } := by
  obtain ⟨⟨hnodup, hsome, hsub⟩, hknodup, hcons⟩ := h
  have hmem : cfg.selectId e ∈ entKeys s.entities := (entLookup_isSome_iff _ _).mp hx
  have hkeys := entKeys_entInsert_mem (l := s.entities) e hmem
  refine ⟨⟨hnodup, ?_, ?_⟩, ?_, ?_⟩
  · intro k hk
    rw [entLookup_entInsert]
    by_cases h3 : cfg.selectId e = k
    · simp [h3]
    · simpa [h3] using hsome k hk
  · intro k hk
    rw [hkeys] at hk
    exact hsub k hk
  · rw [hkeys]
    exact hknodup
  · intro p hp
    rcases mem_entInsert hp with h2 | h2
    · exact hcons p h2
    · rw [h2]

/-- The `addOne` operation preserves the strengthened invariant. -/
theorem adapterWF_addOne {κ T : Type} [DecidableEq κ]
    (cfg : EntityAdapterConfig κ T) (s : EntityState κ T) (e : T)
    (h : adapterWF cfg.selectId s) :
    adapterWF cfg.selectId (addOne cfg s e) := by
  by_cases hx : (entLookup s.entities (cfg.selectId e)).isSome
  · simpa [addOne, hx] using h
  · have hnone : entLookup s.entities (cfg.selectId e) = none :=
      Option.not_isSome_iff_eq_none.mp hx
    simp only [addOne, hx, if_false, Bool.false_eq_true]
    exact adapterWF_sortEntities cfg _ (adapterWF_insert_fresh cfg s e h hnone)

/-- The `setOne` operation preserves the strengthened invariant. -/
theorem adapterWF_setOne {κ T : Type} [DecidableEq κ]
    (cfg : EntityAdapterConfig κ T) (s : EntityState κ T) (e : T)
    (h : adapterWF cfg.selectId s) :
    adapterWF cfg.selectId (setOne cfg s e) := by
  by_cases hx : (entLookup s.entities (cfg.selectId e)).isSome
  · simp only [setOne, hx, if_true]
    exact adapterWF_sortEntities cfg _ (adapterWF_insert_replace cfg s e h hx)
  · have hnone : entLookup s.entities (cfg.selectId e) = none :=
      Option.not_isSome_iff_eq_none.mp hx
    simp only [setOne, hx, if_false, Bool.false_eq_true]
    exact adapterWF_sortEntities cfg _ (adapterWF_insert_fresh cfg s e h hnone)

/-- The `removeOne` operation preserves the strengthened invariant. -/
theorem adapterWF_removeOne {κ T : Type} [DecidableEq κ]
    (cfg : EntityAdapterConfig κ T) (s : EntityState κ T) (i : κ)
    (h : adapterWF cfg.selectId s) :
    adapterWF cfg.selectId (removeOne cfg s i) := by
  obtain ⟨⟨hnodup, hsome, hsub⟩, hknodup, hcons⟩ := h
  cases hx : entLookup s.entities i with
  | none => simpa [removeOne, hx] using ⟨⟨hnodup, hsome, hsub⟩, hknodup, hcons⟩
  | some v =>
      simp only [removeOne, hx]
      refine ⟨⟨hnodup.filter _, ?_, ?_⟩, ?_, ?_⟩
      · intro k hk
        obtain ⟨hk1, hk2⟩ := List.mem_filter.mp hk
        have hki : ¬ k = i := by simpa using hk2
        rw [entLookup_entDelete]
        simpa [hki] using hsome k hk1
      · intro k hk
        rw [entKeys_entDelete] at hk
        obtain ⟨hk1, hk2⟩ := List.mem_filter.mp hk
        exact List.mem_filter.mpr ⟨hsub k hk1, hk2⟩
      · rw [entKeys_entDelete]
        exact hknodup.filter _
      · intro p hp
        exact hcons p (mem_entDelete hp)

/-- The `removeAll` operation preserves the strengthened invariant. -/
theorem adapterWF_removeAll {κ T : Type} [DecidableEq κ]
    (selectId : T → κ) (s : EntityState κ T) :
    adapterWF selectId (removeAll s) := by
  refine ⟨⟨?_, ?_, ?_⟩, ?_, ?_⟩ <;> simp [removeAll, entKeys, keyConsistent]

/-- The `updateOne` operation preserves the strengthened invariant when the
changes never alter the extracted id. -/
theorem adapterWF_updateOne {κ T : Type} [DecidableEq κ]
    (cfg : EntityAdapterConfig κ T) (s : EntityState κ T) (i : κ) (changes : T → T)
    (h : adapterWF cfg.selectId s)
    (hok : ∀ v, cfg.selectId (changes v) = cfg.selectId v) :
    adapterWF cfg.selectId (updateOne cfg s i changes) := by
  cases hx : entLookup s.entities i with
  | none => simpa [updateOne, hx] using h
  | some existing =>
      simp only [updateOne, hx]
      apply adapterWF_sortEntities
      have hid : cfg.selectId existing = i :=
        h.2.2 (i, existing) (entLookup_eq_some_mem hx)
      have hid2 : cfg.selectId (changes existing) = i := by rw [hok existing, hid]
      have := adapterWF_insert_replace cfg s (changes existing) h (by rw [hid2, hx]; simp)
      rwa [hid2] at this

/-- Folding entity insertions over a list of entities with pairwise
distinct fresh ids builds an object keyed exactly by those ids and keyed
consistently. -/
theorem setAll_build_aux {κ T : Type} [DecidableEq κ] (selectId : T → κ) :
    ∀ (es : List T) (acc : List (κ × T)),
      (entKeys acc).Nodup → (∀ p ∈ acc, selectId p.2 = p.1) →
      (∀ e ∈ es, selectId e ∉ entKeys acc) → (es.map selectId).Nodup →
      entKeys (es.foldl (fun a e => entInsert a (selectId e) e) acc)
          = entKeys acc ++ es.map selectId
        ∧ ∀ p ∈ es.foldl (fun a e => entInsert a (selectId e) e) acc,
            selectId p.2 = p.1 := by
  intro es
  induction es with
  | nil =>
      intro acc h1 h2 _ _
      refine ⟨by simp, ?_⟩
      simpa using h2
  | cons e es ih =>
      intro acc h1 h2 h3 h4
      have hke : selectId e ∉ entKeys acc := h3 e (by simp)
      have hkeys : entKeys (entInsert acc (selectId e) e) = entKeys acc ++ [selectId e] :=
        entKeys_entInsert_notMem e hke
      have h4b : (selectId e :: es.map selectId).Nodup := by simpa using h4
      have h4c := List.nodup_cons.mp h4b
      have hnodup2 : (entKeys (entInsert acc (selectId e) e)).Nodup := by
        rw [hkeys]
        simp [List.nodup_append, h1, hke]
      have hcons2 : ∀ p ∈ entInsert acc (selectId e) e, selectId p.2 = p.1 := by
        intro p hp
        rcases mem_entInsert hp with hh | hh
        · exact h2 p hh
        · rw [hh]
      have hdisj2 : ∀ e2 ∈ es, selectId e2 ∉ entKeys (entInsert acc (selectId e) e) := by
        intro e2 he2 hmem
        rw [hkeys] at hmem
        rcases (by simpa using hmem : selectId e2 ∈ entKeys acc ∨ selectId e2 = selectId e) with hh | hh
        · exact h3 e2 (List.mem_cons_of_mem _ he2) hh
        · exact h4c.1 (hh ▸ List.mem_map_of_mem selectId he2)
      obtain ⟨ha, hb⟩ := ih (entInsert acc (selectId e) e) hnodup2 hcons2 hdisj2 h4c.2
      constructor
      · rw [List.foldl_cons, ha, hkeys]
        simp
      · rw [List.foldl_cons]
        exact hb

/-- The `setAll` operation establishes the strengthened invariant whenever
the given entities have pairwise distinct ids. -/
theorem adapterWF_setAll {κ T : Type} [DecidableEq κ]
    (cfg : EntityAdapterConfig κ T) (s : EntityState κ T) (es : List T)
    (hok : (es.map cfg.selectId).Nodup) :
    adapterWF cfg.selectId (setAll cfg s es) := by
  apply adapterWF_sortEntities
  obtain ⟨ha, hb⟩ := setAll_build_aux cfg.selectId es []
    (by simp [entKeys]) (by simp) (by simp [entKeys]) hok
  have ha2 : entKeys (es.foldl (fun a e => entInsert a (cfg.selectId e) e) [])
      = es.map cfg.selectId := by
    simpa [entKeys] using ha
  refine ⟨⟨hok, ?_, ?_⟩, ?_, ?_⟩
  · intro k hk
    rw [entLookup_isSome_iff, ha2]
    exact hk
  · intro k hk
    rw [ha2] at hk
    exact hk
  · rw [ha2]
    exact hok
  · exact hb

/-- The `upsertOne` operation preserves the strengthened invariant. -/
theorem adapterWF_upsertOne {κ T : Type} [DecidableEq κ]
    (cfg : EntityAdapterConfig κ T) (s : EntityState κ T) (e : T)
    (h : adapterWF cfg.selectId s) :
    adapterWF cfg.selectId (upsertOne cfg s e) := by
  by_cases hx : (entLookup s.entities (cfg.selectId e)).isSome
  · simp only [upsertOne, hx, if_true]
    exact adapterWF_setOne cfg s e h
  · simp only [upsertOne, hx, if_false, Bool.false_eq_true]
    exact adapterWF_addOne cfg s e h

/-- The `addMany` operation preserves the strengthened invariant. -/
theorem adapterWF_addMany {κ T : Type} [DecidableEq κ]
    (cfg : EntityAdapterConfig κ T) (s : EntityState κ T) (es : List T)
    (h : adapterWF cfg.selectId s) :
    adapterWF cfg.selectId (addMany cfg s es) := by
  induction es generalizing s with
  | nil => simpa [addMany] using h
  | cons e es ih =>
      have := ih (addOne cfg s e) (adapterWF_addOne cfg s e h)
      simpa [addMany] using this

/-- The `upsertMany` operation preserves the strengthened invariant. -/
theorem adapterWF_upsertMany {κ T : Type} [DecidableEq κ]
    (cfg : EntityAdapterConfig κ T) (s : EntityState κ T) (es : List T)
    (h : adapterWF cfg.selectId s) :
    adapterWF cfg.selectId (upsertMany cfg s es) := by
  induction es generalizing s with
  | nil => simpa [upsertMany] using h
  | cons e es ih =>
      have := ih (upsertOne cfg s e) (adapterWF_upsertOne cfg s e h)
      simpa [upsertMany] using this

/-- The `removeMany` operation preserves the strengthened invariant. -/
theorem adapterWF_removeMany {κ T : Type} [DecidableEq κ]
    (cfg : EntityAdapterConfig κ T) (s : EntityState κ T) (is0 : List κ)
    (h : adapterWF cfg.selectId s) :
    adapterWF cfg.selectId (removeMany cfg s is0) := by
  induction is0 generalizing s with
  | nil => simpa [removeMany] using h
  | cons i is0 ih =>
      have := ih (removeOne cfg s i) (adapterWF_removeOne cfg s i h)
      simpa [removeMany] using this

/-- The `updateMany` operation preserves the strengthened invariant when no
update changes the extracted id. -/
theorem adapterWF_updateMany {κ T : Type} [DecidableEq κ]
    (cfg : EntityAdapterConfig κ T) (s : EntityState κ T) (us : List (κ × (T → T)))
    (h : adapterWF cfg.selectId s)
    (hok : ∀ u ∈ us, ∀ v, cfg.selectId (u.2 v) = cfg.selectId v) :
    adapterWF cfg.selectId (updateMany cfg s us) := by
  induction us generalizing s with
  | nil => simpa [updateMany] using h
  | cons u us ih =>
      have h1 := adapterWF_updateOne cfg s u.1 u.2 h (hok u (by simp))
      have := ih (updateOne cfg s u.1 u.2) h1 (fun u2 hu2 => hok u2 (List.mem_cons_of_mem _ hu2))
      simpa [updateMany] using this

/-- C3: `removeOne` on an absent id, `updateOne` on an absent id, and
`addOne` on a present id each return the exact object reference they were
given (the literal `return state` of the source), not merely an equal
copy: in the reference-tracking model the address of the result is the
address of the input. -/
theorem c3_noop_reference_stability {κ T : Type} [DecidableEq κ]
    (cfg : EntityAdapterConfig κ T) (r : Ref (EntityState κ T))
    (e : T) (i j : κ) (changes : T → T) (fresh1 fresh2 fresh3 : Nat)
    (hpresent : (entLookup r.val.entities (cfg.selectId e)).isSome)
    (habsent1 : entLookup r.val.entities i = none)
    (habsent2 : entLookup r.val.entities j = none) :
    addOneRef cfg r e fresh1 = r
      ∧ removeOneRef cfg r i fresh2 = r
      ∧ updateOneRef cfg r j changes fresh3 = r := by
  refine ⟨?_, ?_, ?_⟩
  · simp [addOneRef, hpresent]
  · simp [removeOneRef, habsent1]
  · simp [updateOneRef, habsent2]

/-- Witness for C3 at a concrete one-entity state and fresh addresses. -/
theorem c3_witness :
    addOneRef natCfg ⟨5, ⟨[1], [(1, 1)]⟩⟩ 1 6 = ⟨5, ⟨[1], [(1, 1)]⟩⟩
      ∧ removeOneRef natCfg ⟨5, ⟨[1], [(1, 1)]⟩⟩ 2 7 = ⟨5, ⟨[1], [(1, 1)]⟩⟩
      ∧ updateOneRef natCfg ⟨5, ⟨[1], [(1, 1)]⟩⟩ 3 (fun t => t + 1) 8 = ⟨5, ⟨[1], [(1, 1)]⟩⟩ :=
  c3_noop_reference_stability natCfg ⟨5, ⟨[1], [(1, 1)]⟩⟩ 1 2 3 (fun t => t + 1) 6 7 8
    (by decide) (by decide) (by decide)

/-- C5: a second `configureStore` call on an already-configured instance
throws `Store already initialize!` synchronously, and the guard runs before
anything is built or assigned, so the instance state — the installed store
reference, its state and its subscribers — is exactly what it was. -/
theorem c5_double_configure_throws {σ ρ μ : Type}
    (composeReducersFn : ρ → List μ → ρ)
    (createStoreFn : ρ → σ → StoreModel σ)
    (enhancers : List ((ρ → σ → StoreModel σ) → (ρ → σ → StoreModel σ)))
    (bridgeId : Nat) (m : NgReduxModel σ) (reducer : ρ) (initState : σ)
    (middleware : List μ) (h : m.store.isSome) :
    configureStore composeReducersFn createStoreFn enhancers bridgeId m
        reducer initState middleware
      = (Except.error "Store already initialize!", m) := by
  simp [configureStore, h]

/-- Witness for C5 on a configured instance holding state 42 and two
subscribers. -/
theorem c5_witness :
    configureStore (fun r _ => r) (fun _ st => ⟨st, []⟩) [] 0
        (⟨some ⟨42, [0, 1]⟩⟩ : NgReduxModel Nat) 0 99 ([] : List Nat)
      = (Except.error "Store already initialize!", ⟨some ⟨42, [0, 1]⟩⟩) :=
  c5_double_configure_throws (fun r _ => r) (fun _ st => ⟨st, []⟩) [] 0
    ⟨some ⟨42, [0, 1]⟩⟩ 0 99 [] (by decide)

/-- C6 (amended): `loadReducer` registers the slice under the key, pushes
the newly combined reducer via `replaceReducer`, dispatches exactly one
initialization action — whose type is the string
`@@LAZY_REDUCER/INIT/<key>`, not `LAZY_REDUCER_INIT/<key>` — and returns
an unload closure that unregisters the key (leaving it unmapped) and
pushes the recombined reducer again without dispatching anything. -/
theorem c6_load_reducer_behavior {ρ : Type} (key : String) (red : ρ)
    (sys : LazyLoadState ρ) :
    entLookup (loadReducer key red sys).registry.reducerMap key = some red
      ∧ (loadReducer key red sys).activeReducer
          = some (getCombinedReducer (loadReducer key red sys).registry)
      ∧ (loadReducer key red sys).dispatchedTypes
          = sys.dispatchedTypes ++ ["@@LAZY_REDUCER/INIT/" ++ key]
      ∧ entLookup (unloadReducer key (loadReducer key red sys)).registry.reducerMap key = none
      ∧ (unloadReducer key (loadReducer key red sys)).activeReducer
          = some (getCombinedReducer (unloadReducer key (loadReducer key red sys)).registry)
      ∧ (unloadReducer key (loadReducer key red sys)).dispatchedTypes
          = (loadReducer key red sys).dispatchedTypes := by
  have hreg : entLookup (loadReducer key red sys).registry.reducerMap key = some red := by
    simp [loadReducer, registryRegister, entLookup_entInsert]
  refine ⟨hreg, rfl, rfl, ?_, rfl, rfl⟩
  have hsome : (entLookup (loadReducer key red sys).registry.reducerMap key).isSome := by
    rw [hreg]; rfl
  simp [unloadReducer, registryUnregister, hsome, entLookup_entDelete]

/-- C6 counterexample: for the key `admin` the dispatched action type is
`@@LAZY_REDUCER/INIT/admin`, which differs from the claimed
`LAZY_REDUCER_INIT/admin`. -/
theorem c6_counterexample :
    (loadReducer "admin" (0 : Nat)
        { registry := { reducerMap := [], baseReducer := none },
          activeReducer := none, dispatchedTypes := [] }).dispatchedTypes
        = ["@@LAZY_REDUCER/INIT/admin"]
      ∧ "@@LAZY_REDUCER/INIT/admin" ≠ "LAZY_REDUCER_INIT/admin" := by
  exact ⟨rfl, by decide⟩

/-- C7 (amended): `register` notifies listeners unconditionally — also when
it leaves the key-to-reducer mapping unchanged — while `unregister`
notifies exactly when the key was present (and then removes it); an
`unregister` of an absent key changes nothing and fires no listener. -/
theorem c7_registry_notifications {ρ : Type} (r : RegistryState ρ)
    (key : String) (red : ρ) :
    (registryRegister r key red).2 = true
      ∧ ((entLookup r.reducerMap key).isSome →
          (registryUnregister r key).2 = true
            ∧ entLookup (registryUnregister r key).1.reducerMap key = none)
      ∧ (entLookup r.reducerMap key = none → registryUnregister r key = (r, false)) := by
  refine ⟨rfl, ?_, ?_⟩
  · intro h
    simp [registryUnregister, h, entLookup_entDelete]
  · intro h
    simp [registryUnregister, h]

/-- Witness for C7 on a one-slice registry: unregistering the present key
notifies and unmaps it; unregistering an absent key is a silent no-op. -/
theorem c7_witness :
    (registryRegister (⟨[("a", 5)], none⟩ : RegistryState Nat) "b" 7).2 = true
      ∧ ((registryUnregister (⟨[("a", 5)], none⟩ : RegistryState Nat) "a").2 = true
          ∧ entLookup (registryUnregister (⟨[("a", 5)], none⟩ : RegistryState Nat) "a").1.reducerMap "a" = none)
      ∧ registryUnregister (⟨[("a", 5)], none⟩ : RegistryState Nat) "x" = (⟨[("a", 5)], none⟩, false) := by
  have h := c7_registry_notifications (⟨[("a", 5)], none⟩ : RegistryState Nat) "a" 5
  have h2 := c7_registry_notifications (⟨[("a", 5)], none⟩ : RegistryState Nat) "x" 5
  exact ⟨(c7_registry_notifications ⟨[("a", 5)], none⟩ "b" 7).1,
    h.2.1 (by decide), h2.2.2 (by decide)⟩

/-- C7 counterexample: re-registering the identical key-to-reducer pair
leaves the registry unchanged yet still fires the listeners, so listeners
do not fire only on registry-changing calls. -/
theorem c7_counterexample :
    (registryRegister (⟨[("a", 5)], none⟩ : RegistryState Nat) "a" 5).1
        = (⟨[("a", 5)], none⟩ : RegistryState Nat)
      ∧ (registryRegister (⟨[("a", 5)], none⟩ : RegistryState Nat) "a" 5).2 = true := by
  exact ⟨by decide, rfl⟩

/-- C8: with a nonempty serialized string, `rehydrateState` returns the
deserializer's value when it succeeds (likewise for the default
`JSON.parse` when no deserializer is supplied) and the fallback when it
throws; totality of `rehydrateState` into the state type reflects that the
error never escapes to the caller. -/
theorem c8_rehydrate_error_fallback {σ ε : Type} (s : String) (fallback : σ)
    (d jp : String → Except ε σ) (v : σ) (err : ε) (hs : s ≠ "") :
    (d s = Except.ok v → rehydrateState (some s) fallback (some d) jp = v)
      ∧ (d s = Except.error err → rehydrateState (some s) fallback (some d) jp = fallback)
      ∧ (jp s = Except.ok v → rehydrateState (some s) fallback none jp = v)
      ∧ (jp s = Except.error err → rehydrateState (some s) fallback none jp = fallback) := by
  refine ⟨?_, ?_, ?_, ?_⟩ <;> intro h <;> simp [rehydrateState, hs, h]

/-- Witness for C8 with a succeeding custom deserializer and a throwing
default parser. -/
theorem c8_witness :
    ((fun _ => Except.ok 7 : String → Except String Nat) "x" = Except.ok 7 →
        rehydrateState (some "x") 0 (some (fun _ => Except.ok 7))
          (fun _ => Except.error "bad") = 7)
      ∧ ((fun _ => Except.ok 7 : String → Except String Nat) "x" = Except.error "bad" →
        rehydrateState (some "x") 0 (some (fun _ => Except.ok 7))
          (fun _ => Except.error "bad") = 0)
      ∧ ((fun _ => Except.error "bad" : String → Except String Nat) "x" = Except.ok 7 →
        rehydrateState (some "x") 0 none (fun _ => Except.error "bad") = 7)
      ∧ ((fun _ => Except.error "bad" : String → Except String Nat) "x" = Except.error "bad" →
        rehydrateState (some "x") 0 none (fun _ => Except.error "bad") = 0) :=
  c8_rehydrate_error_fallback "x" 0 (fun _ => Except.ok 7)
    (fun _ => Except.error "bad") 7 "bad" (by decide)

/-- C10: on `null`/`undefined` (`none`) or the empty string,
`rehydrateState` returns the fallback for every deserializer and every
default parser whatsoever — the quantification over all deserializers
expresses that neither is ever consulted. -/
theorem c10_rehydrate_falsy_fallback {σ ε : Type} (fallback : σ)
    (deserializer : Option (String → Except ε σ))
    (jsonParse : String → Except ε σ) :
    rehydrateState none fallback deserializer jsonParse = fallback
      ∧ rehydrateState (some "") fallback deserializer jsonParse = fallback := by
  constructor <;> simp [rehydrateState]

/-- C4: the memoized selector compares the current input-selector outputs
element-wise by reference with the previous ones; on a full match it
returns the cached result with the cache (and the recomputation counter)
untouched; calling a fresh selector twice on the same state invokes the
result function exactly once; and an input list that differs from the
cached one triggers exactly one more invocation, whose value is the result
function applied to the new inputs. -/
theorem c4_selector_memoization {S V R : Type} [DecidableEq V]
    (selectors : List (S → V)) (resultFn : List V → R) (st st2 : S)
    (c : MemoCache V R) (li : List V) (lr : R)
    (hcache : c.last = some (li, lr))
    (heq : selectors.map (fun sel => sel st) = li)
    (hne : selectors.map (fun sel => sel st2) ≠ li) :
    memoInvoke selectors resultFn c st = (lr, c)
      ∧ (memoInvoke selectors resultFn
          (memoInvoke selectors resultFn memoCacheInit st).2 st).2.recomputations = 1
      ∧ (memoInvoke selectors resultFn
          (memoInvoke selectors resultFn memoCacheInit st).2 st).1
          = (memoInvoke selectors resultFn memoCacheInit st).1
      ∧ (memoInvoke selectors resultFn c st2).2.recomputations = c.recomputations + 1
      ∧ (memoInvoke selectors resultFn c st2).1
          = resultFn (selectors.map (fun sel => sel st2)) := by
  refine ⟨?_, ?_, ?_, ?_, ?_⟩
  · simp [memoInvoke, hcache, heq]
  · simp [memoInvoke, memoCacheInit]
  · simp [memoInvoke, memoCacheInit]
  · rw [memoInvoke]
    simp only [hcache]
    by_cases hlen : selectors.length = li.length
    · simp [hlen, hne]
    · simp [hlen]
  · rw [memoInvoke]
    simp only [hcache]
    by_cases hlen : selectors.length = li.length
    · simp [hlen, hne]
    · simp [hlen]

/-- Witness for C4: two numeric input selectors with a summing result
function, a cache primed by a first call on state 1, and state 2 changing
the inputs. -/
theorem c4_witness :
    memoInvoke [fun s : Nat => s, fun s : Nat => s * 2] (fun l => l.sum)
        ⟨some ([1, 2], 3), 1⟩ 1 = (3, ⟨some ([1, 2], 3), 1⟩)
      ∧ (memoInvoke [fun s : Nat => s, fun s : Nat => s * 2] (fun l => l.sum)
          (memoInvoke [fun s : Nat => s, fun s : Nat => s * 2] (fun l => l.sum)
            memoCacheInit 1).2 1).2.recomputations = 1
      ∧ (memoInvoke [fun s : Nat => s, fun s : Nat => s * 2] (fun l => l.sum)
          (memoInvoke [fun s : Nat => s, fun s : Nat => s * 2] (fun l => l.sum)
            memoCacheInit 1).2 1).1
          = (memoInvoke [fun s : Nat => s, fun s : Nat => s * 2] (fun l => l.sum)
            memoCacheInit 1).1
      ∧ (memoInvoke [fun s : Nat => s, fun s : Nat => s * 2] (fun l => l.sum)
          ⟨some ([1, 2], 3), 1⟩ 2).2.recomputations = 1 + 1
      ∧ (memoInvoke [fun s : Nat => s, fun s : Nat => s * 2] (fun l => l.sum)
          ⟨some ([1, 2], 3), 1⟩ 2).1
          = (fun l => l.sum) ([fun s : Nat => s, fun s : Nat => s * 2].map (fun sel => sel 2)) :=
  c4_selector_memoization [fun s : Nat => s, fun s : Nat => s * 2] (fun l => l.sum)
    1 2 ⟨some ([1, 2], 3), 1⟩ [1, 2] 3 rfl (by decide) (by decide)

/-- C1 (amended): for every adapter and every operation, the invariant must
be strengthened to be preserved — besides "ids has no duplicates and its
members are exactly the keys of entities", the input state must store every
entity under its own extracted id, the entity list given to `setAll` must
have pairwise distinct ids, and update changes must never alter the
extracted id; under those side conditions every one of the eleven
operations preserves the strengthened invariant (and with it the
invariant as originally claimed). -/
theorem c1_entity_invariant_preserved {κ T : Type} [DecidableEq κ]
    (cfg : EntityAdapterConfig κ T) (s : EntityState κ T) (op : EntityOp κ T)
    (h : adapterWF cfg.selectId s) (hop : opOk cfg op) :
    adapterWF cfg.selectId (applyOp cfg s op) := by
  cases op with
  | addOne e => exact adapterWF_addOne cfg s e h
  | addMany es => exact adapterWF_addMany cfg s es h
  | setAll es => exact adapterWF_setAll cfg s es hop
  | setOne e => exact adapterWF_setOne cfg s e h
  | removeOne i => exact adapterWF_removeOne cfg s i h
  | removeMany is0 => exact adapterWF_removeMany cfg s is0 h
  | removeAll => exact adapterWF_removeAll cfg.selectId s
  | updateOne i changes => exact adapterWF_updateOne cfg s i changes h hop
  | updateMany us => exact adapterWF_updateMany cfg s us h hop
  | upsertOne e => exact adapterWF_upsertOne cfg s e h
  | upsertMany es => exact adapterWF_upsertMany cfg s es h

unseal List.merge List.mergeSort in
/-- Witness for C1: adding a fresh entity to a well-formed one-entity state
of the sorted pair adapter preserves the strengthened invariant. -/
theorem c1_witness :
    adapterWF pairCfg.selectId
      (applyOp pairCfg ⟨[1], [(1, (1, 10))]⟩ (EntityOp.addOne (2, 5))) :=
  c1_entity_invariant_preserved pairCfg ⟨[1], [(1, (1, 10))]⟩ (EntityOp.addOne (2, 5))
    (by decide) trivial

unseal List.merge List.mergeSort in
/-- C1 counterexample, refuting the claim as stated three times over:
`setAll` with a duplicated id breaks the no-duplicates half of the
invariant; a sorted adapter's `updateOne` whose changes move the id field
breaks the ids-equal-keys half; and on an invariant-but-not-key-consistent
state even `addOne` breaks the invariant, so the claimed precondition is
too weak for preservation. -/
theorem c1_counterexample :
    (specInvariant (getInitialState (κ := Nat) (T := Nat))
        ∧ ¬ specInvariant (setAll natCfg getInitialState [1, 1]))
      ∧ (specInvariant (⟨[1], [(1, (1, 5))]⟩ : EntityState Nat (Nat × Nat))
        ∧ ¬ specInvariant (updateOne pairCfg ⟨[1], [(1, (1, 5))]⟩ 1 (fun p => (2, p.2))))
      ∧ (specInvariant (⟨[1], [(1, (2, 5))]⟩ : EntityState Nat (Nat × Nat))
        ∧ ¬ specInvariant (addOne pairCfg ⟨[1], [(1, (2, 5))]⟩ (3, 7))) := by
  decide

/-- The empty initial state is trivially sorted. -/
theorem entityListSorted_getInitialState {κ T : Type} [DecidableEq κ] (le : T → T → Bool) :
    entityListSorted le (getInitialState (κ := κ) (T := T)) := by
  constructor <;> simp [selectAllOpt, getInitialState]

/-- After `sortEntities` with a total and transitive comparator order, a
state satisfying the strengthened invariant has its entity list sorted:
every id looks up an entity and the entities are pairwise ordered. -/
theorem entityListSorted_sortEntities {κ T : Type} [DecidableEq κ]
    (cfg : EntityAdapterConfig κ T) (cmp : T → T → Int)
    (hc : cfg.sortComparer = some cmp)
    (htrans : ∀ a b c, cmpLe cmp a b → cmpLe cmp b c → cmpLe cmp a c)
    (htot : ∀ a b, cmpLe cmp a b || cmpLe cmp b a)
    (s : EntityState κ T) (h : adapterWF cfg.selectId s) :
    entityListSorted (cmpLe cmp) (sortEntities cfg s) := by
  obtain ⟨⟨hnodup, hsome, hsub⟩, hknodup, hcons⟩ := h
  have hmemlookup :
      ∀ e ∈ ((s.ids.map (entLookup s.entities)).filterMap id).mergeSort (cmpLe cmp),
        entLookup s.entities (cfg.selectId e) = some e := by
    intro e he
    have he2 : e ∈ (s.ids.map (entLookup s.entities)).filterMap id :=
      List.mem_mergeSort.mp he
    obtain ⟨o, ho, hoe⟩ := List.mem_filterMap.mp he2
    obtain ⟨k, hk, hko⟩ := List.mem_map.mp ho
    have hlk : entLookup s.entities k = some e := by rw [hko]; exact hoe
    have hsel : cfg.selectId e = k := hcons (k, e) (entLookup_eq_some_mem hlk)
    rw [hsel]
    exact hlk
  have hopt : selectAllOpt (sortEntities cfg s)
      = (((s.ids.map (entLookup s.entities)).filterMap id).mergeSort (cmpLe cmp)).map some := by
    simp only [sortEntities, hc, selectAllOpt]
    rw [List.map_map]
    exact List.map_congr_left (fun e he => hmemlookup e he)
  constructor
  · intro o ho
    rw [hopt] at ho
    obtain ⟨e, _, rfl⟩ := List.mem_map.mp ho
    rfl
  · rw [hopt]
    have heq :
        ((((s.ids.map (entLookup s.entities)).filterMap id).mergeSort (cmpLe cmp)).map some).filterMap id
          = ((s.ids.map (entLookup s.entities)).filterMap id).mergeSort (cmpLe cmp) := by
      simp
    rw [heq]
    exact List.sorted_mergeSort htrans htot _

/-- One `addOne` keeps the entity list sorted. -/
theorem entityListSorted_addOne {κ T : Type} [DecidableEq κ]
    (cfg : EntityAdapterConfig κ T) (cmp : T → T → Int)
    (hc : cfg.sortComparer = some cmp)
    (htrans : ∀ a b c, cmpLe cmp a b → cmpLe cmp b c → cmpLe cmp a c)
    (htot : ∀ a b, cmpLe cmp a b || cmpLe cmp b a)
    (s : EntityState κ T) (e : T) (h : adapterWF cfg.selectId s)
    (hs : entityListSorted (cmpLe cmp) s) :
    entityListSorted (cmpLe cmp) (addOne cfg s e) := by
  by_cases hx : (entLookup s.entities (cfg.selectId e)).isSome
  · simpa [addOne, hx] using hs
  · have hnone := Option.not_isSome_iff_eq_none.mp hx
    simp only [addOne, hx, if_false, Bool.false_eq_true]
    exact entityListSorted_sortEntities cfg cmp hc htrans htot _
      (adapterWF_insert_fresh cfg s e h hnone)

/-- One `setOne` keeps the entity list sorted. -/
theorem entityListSorted_setOne {κ T : Type} [DecidableEq κ]
    (cfg : EntityAdapterConfig κ T) (cmp : T → T → Int)
    (hc : cfg.sortComparer = some cmp)
    (htrans : ∀ a b c, cmpLe cmp a b → cmpLe cmp b c → cmpLe cmp a c)
    (htot : ∀ a b, cmpLe cmp a b || cmpLe cmp b a)
    (s : EntityState κ T) (e : T) (h : adapterWF cfg.selectId s) :
    entityListSorted (cmpLe cmp) (setOne cfg s e) := by
  by_cases hx : (entLookup s.entities (cfg.selectId e)).isSome
  · simp only [setOne, hx, if_true]
    exact entityListSorted_sortEntities cfg cmp hc htrans htot _
      (adapterWF_insert_replace cfg s e h hx)
  · have hnone := Option.not_isSome_iff_eq_none.mp hx
    simp only [setOne, hx, if_false, Bool.false_eq_true]
    exact entityListSorted_sortEntities cfg cmp hc htrans htot _
      (adapterWF_insert_fresh cfg s e h hnone)

/-- One id-preserving `updateOne` keeps the entity list sorted. -/
theorem entityListSorted_updateOne {κ T : Type} [DecidableEq κ]
    (cfg : EntityAdapterConfig κ T) (cmp : T → T → Int)
    (hc : cfg.sortComparer = some cmp)
    (htrans : ∀ a b c, cmpLe cmp a b → cmpLe cmp b c → cmpLe cmp a c)
    (htot : ∀ a b, cmpLe cmp a b || cmpLe cmp b a)
    (s : EntityState κ T) (i : κ) (changes : T → T) (h : adapterWF cfg.selectId s)
    (hs : entityListSorted (cmpLe cmp) s)
    (hok : ∀ v, cfg.selectId (changes v) = cfg.selectId v) :
    entityListSorted (cmpLe cmp) (updateOne cfg s i changes) := by
  cases hx : entLookup s.entities i with
  | none => simpa [updateOne, hx] using hs
  | some existing =>
      simp only [updateOne, hx]
      have hid : cfg.selectId existing = i := h.2.2 (i, existing) (entLookup_eq_some_mem hx)
      have hid2 : cfg.selectId (changes existing) = i := by rw [hok existing, hid]
      have hwf := adapterWF_insert_replace cfg s (changes existing) h (by rw [hid2, hx]; rfl)
      rw [hid2] at hwf
      exact entityListSorted_sortEntities cfg cmp hc htrans htot _ hwf

/-- One `addMany` keeps the entity list sorted. -/
theorem entityListSorted_addMany {κ T : Type} [DecidableEq κ]
    (cfg : EntityAdapterConfig κ T) (cmp : T → T → Int)
    (hc : cfg.sortComparer = some cmp)
    (htrans : ∀ a b c, cmpLe cmp a b → cmpLe cmp b c → cmpLe cmp a c)
    (htot : ∀ a b, cmpLe cmp a b || cmpLe cmp b a)
    (es : List T) (s : EntityState κ T) (h : adapterWF cfg.selectId s)
    (hs : entityListSorted (cmpLe cmp) s) :
    entityListSorted (cmpLe cmp) (addMany cfg s es) := by
  induction es generalizing s with
  | nil => simpa [addMany] using hs
  | cons e es ih =>
      have h1 := adapterWF_addOne cfg s e h
      have hs1 := entityListSorted_addOne cfg cmp hc htrans htot s e h hs
      simpa [addMany] using ih (addOne cfg s e) h1 hs1

/-- C2 (amended): for an adapter whose comparator induces a total and
transitive order, after any sequence of `addMany`/`setOne`/`updateOne`
calls from the initial state — with every update's changes leaving the
extracted id unchanged — the list `ids.map(id => entities[id])` consists
of present entities and is sorted according to the comparator; since the
sequence is arbitrary, this holds after each call of any run. -/
theorem c2_sort_invariant {κ T : Type} [DecidableEq κ]
    (cfg : EntityAdapterConfig κ T) (cmp : T → T → Int)
    (hc : cfg.sortComparer = some cmp)
    (htrans : ∀ a b c, cmpLe cmp a b → cmpLe cmp b c → cmpLe cmp a c)
    (htot : ∀ a b, cmpLe cmp a b || cmpLe cmp b a)
    (ops : List (SeqOp κ T)) (hops : ∀ op ∈ ops, seqOpOk cfg op) :
    entityListSorted (cmpLe cmp) (applySeq cfg getInitialState ops) := by
  have main : ∀ (ops2 : List (SeqOp κ T)) (s : EntityState κ T),
      adapterWF cfg.selectId s → entityListSorted (cmpLe cmp) s →
      (∀ op ∈ ops2, seqOpOk cfg op) →
      adapterWF cfg.selectId (applySeq cfg s ops2)
        ∧ entityListSorted (cmpLe cmp) (applySeq cfg s ops2) := by
    intro ops2
    induction ops2 with
    | nil =>
        intro s h1 h2 _
        exact ⟨by simpa [applySeq] using h1, by simpa [applySeq] using h2⟩
    | cons op ops2 ih =>
        intro s h1 h2 h3
        have hstep : adapterWF cfg.selectId (applySeqOp cfg s op)
            ∧ entityListSorted (cmpLe cmp) (applySeqOp cfg s op) := by
          cases op with
          | addMany es =>
              exact ⟨adapterWF_addMany cfg s es h1,
                entityListSorted_addMany cfg cmp hc htrans htot es s h1 h2⟩
          | setOne e =>
              exact ⟨adapterWF_setOne cfg s e h1,
                entityListSorted_setOne cfg cmp hc htrans htot s e h1⟩
          | updateOne i changes =>
              have hok : ∀ v, cfg.selectId (changes v) = cfg.selectId v :=
                h3 (SeqOp.updateOne i changes) (by simp)
              exact ⟨adapterWF_updateOne cfg s i changes h1 hok,
                entityListSorted_updateOne cfg cmp hc htrans htot s i changes h1 h2 hok⟩
        have htail : ∀ op2 ∈ ops2, seqOpOk cfg op2 :=
          fun op2 hop2 => h3 op2 (List.mem_cons_of_mem _ hop2)
        have := ih (applySeqOp cfg s op) hstep.1 hstep.2 htail
        exact ⟨by simpa [applySeq] using this.1, by simpa [applySeq] using this.2⟩
  exact (main ops getInitialState (adapterWF_getInitialState cfg.selectId)
    (entityListSorted_getInitialState (cmpLe cmp)) hops).2

unseal List.merge List.mergeSort in
/-- Witness for C2: the pair adapter stays sorted through a concrete
`addMany` run, and the specification scenario — `addMany` of Charlie,
Alice, Bob with a `localeCompare` comparator on the name — produces
`ids = [1, 2, 3]`. -/
theorem c2_witness :
    entityListSorted (cmpLe (fun a b => (a.2 : Int) - (b.2 : Int)))
        (applySeq pairCfg getInitialState [SeqOp.addMany [(3, 30), (1, 10), (2, 20)]])
      ∧ (applySeq userCfg getInitialState
          [SeqOp.addMany [⟨3, "Charlie"⟩, ⟨1, "Alice"⟩, ⟨2, "Bob"⟩]]).ids = [1, 2, 3] := by
  constructor
  · exact c2_sort_invariant pairCfg (fun a b => (a.2 : Int) - (b.2 : Int)) rfl
      (by intro a b c hab hbc; simp only [cmpLe, decide_eq_true_eq] at hab hbc ⊢; omega)
      (by intro a b; simp only [cmpLe, Bool.or_eq_true, decide_eq_true_eq]; omega)
      [SeqOp.addMany [(3, 30), (1, 10), (2, 20)]]
      (by intro op hop
          have : op = SeqOp.addMany [(3, 30), (1, 10), (2, 20)] := by simpa using hop
          rw [this]
          trivial)
  · decide

unseal List.merge List.mergeSort in
/-- C2 counterexample: with the sorted pair adapter, an `updateOne` whose
changes move the id field leaves `ids` pointing at a missing entity, so
`ids.map(id => entities[id])` is no longer a sorted list of entities —
refuting the claim for unrestricted `updateOne` calls. -/
theorem c2_counterexample :
    ¬ entityListSorted (cmpLe (fun a b => (a.2 : Int) - (b.2 : Int)))
        (applySeq pairCfg getInitialState
          [SeqOp.addMany [(1, 10), (2, 20)], SeqOp.updateOne 1 (fun p => (3, p.2))]) := by
  decide
